import Mathlib

/-!
Verification of the runtime-reconfigurable log-level filter
(`libs/log/filter.go`): level bit sets, the override table
(`allowedKeyvalMap`), filter nodes, the process-wide derived-logger cache
(`CacheLoggers`), qualification (`With`), re-derivation (`UpdateWith`),
the policy update protocol (`update` / `UpdateFilter`) and the policy
string parser (`UpdateLogLevel`).

Go maps are modelled as association lists (iteration order of a Go map is
unspecified; the list order is one linearization, and all properties proved
here depend only on exact-key equality, never on order).  Heap identity of
`*filter` objects is modelled by indices into an explicit node heap, so
"same instance" is index equality.
-/

set_option maxHeartbeats 1000000

namespace TMLog

/-- Severity bit set, Go `type level byte`. -/
abbrev level := Nat

/-- `levelDebug level = 1 << iota` -/
def levelDebug : level := 1

/-- `levelInfo` -/
def levelInfo : level := 2

/-- `levelError` -/
def levelError : level := 4

/-- A Go `interface{}` key or value: a string, or an opaque non-string. -/
inductive GoVal where
  | str (s : String)
  | other (n : Nat)
deriving DecidableEq, Repr

/-- Go `type keyval struct { key, value interface{} }`. -/
structure keyval where
  key : GoVal
  value : GoVal
deriving DecidableEq, Repr

/-- The override table `allowedKeyvalMap.data : map[keyval]level`,
as an association list with at most one entry per `keyval`. -/
abbrev AKVTable := List (keyval × level)

/-- Go `(*allowedKeyvalMap).set`: `a.data[keyval{key, value}] = lv`,
i.e. overwrite the entry if the pair is present, insert it otherwise. -/
def akvSet (t : AKVTable) (k v : GoVal) (lv : level) : AKVTable :=
  if t.any (fun e => e.1 == keyval.mk k v) then
    t.map (fun e => if e.1 == keyval.mk k v then (e.1, lv) else e)
  else t ++ [(keyval.mk k v, lv)]

/-- Map lookup on the override table. -/
def lookupKV (t : AKVTable) (kv : keyval) : Option level :=
  (t.find? (fun e => e.1 == kv)).map (·.2)

/-- The exact (key, value) hit performed inside a `traverse` callback:
`keyvals[i] == kv.key && keyvals[i+1] == kv.value`. -/
def lookupExact (t : AKVTable) (k v : GoVal) : Option level :=
  lookupKV t (keyval.mk k v)

/-- Whether some table entry's key equals `k`
(`keyInallowedKeyvalMap = true` for this pair). -/
def keyRecognized (t : AKVTable) (k : GoVal) : Bool :=
  t.any (fun e => e.1.key == k)

/-- A `filter` node.  `next` models the backend logger reached through
`l.next` as the list of attribute lists handed to its `With` on the way
down from the root; `allowed` and `initiallyAllowed` are the effective and
baseline level sets.  The shared `allowedKV` pointer lives in `CacheState`. -/
structure FilterNode where
  next : List (List GoVal)
  allowed : level
  initiallyAllowed : level
deriving DecidableEq, Repr

/-- The shared mutable state: the override table (`allowedKV`), the heap of
allocated `filter` objects (indices are object identities) and the
process-wide `CacheLoggers.loggersMap` from attribute-path string to the
heap index of the cached node. -/
structure CacheState where
  table : AKVTable
  heap : List FilterNode
  loggersMap : List (String × Nat)
deriving DecidableEq, Repr

/-- Outcome of the backward pair scan shared by `With` and `UpdateWith`:
a `traverse` returned an exact hit with this level, or no exact hit but
`keyInallowedKeyvalMap` ended up true, or neither. -/
inductive ScanResult where
  | matched (lv : level)
  | recognized
  | unknown
deriving DecidableEq, Repr

/-- The scan loop `for i := len(keyvals) - 2; i >= 0; i -= 2` of
`(*filter).With` (and `(*filter).UpdateWith`): the argument is the flat
keyvals list reversed, consumed two at a time, so (key, value) pairs are
visited from the most recently appended pair backward.  An exact
(key, value) table hit stops the scan; otherwise a key-only hit records
`keyInallowedKeyvalMap` and the scan moves to the next-earlier pair. -/
def scanRevFlat (t : AKVTable) : List String → ScanResult
  | v :: k :: rest =>
    match lookupExact t (GoVal.str k) (GoVal.str v) with
    | some lv => ScanResult.matched lv
    | none =>
      if keyRecognized t (GoVal.str k) then
        match scanRevFlat t rest with
        | ScanResult.matched lv => ScanResult.matched lv
        | _ => ScanResult.recognized
      else scanRevFlat t rest
  | _ => ScanResult.unknown

/-- Like `scanRevFlat`, but reporting which table entry supplied an adopted
level: the entry returned by the `find first match` traverse that stopped
the scan, if any. -/
def scanMatchEntry (t : AKVTable) : List String → Option (keyval × level)
  | v :: k :: rest =>
    match t.find? (fun e => e.1 == keyval.mk (GoVal.str k) (GoVal.str v)) with
    | some e => some e
    | none => scanMatchEntry t rest
  | _ => none

/-- `strings.Trim(keyvalsStr, keyvalsSplit)`: strip leading and trailing
runs of the separator from the character list. -/
def trimAmp (l : List Char) : List Char :=
  ((l.dropWhile (fun c => c == '&')).reverse.dropWhile (fun c => c == '&')).reverse

/-- The attribute-path cache key of one `With` call:
`keyvalsStr += s; keyvalsStr += keyvalsSplit` per element, then the trim. -/
def pathString (flat : List String) : String :=
  String.mk (trimAmp (flat.foldl (fun acc s => acc ++ s.data ++ ['&']) []))

/-- `(*CacheLoggers).get`. -/
def cacheGet (m : List (String × Nat)) (k : String) : Option Nat :=
  (m.find? (fun e => e.1 == k)).map (·.2)

/-- `(*CacheLoggers).set`: map assignment `l.loggersMap[key] = logger`. -/
def cacheSet (m : List (String × Nat)) (k : String) (v : Nat) : List (String × Nat) :=
  if m.any (fun e => e.1 == k) then
    m.map (fun e => if e.1 == k then (e.1, v) else e)
  else m ++ [(k, v)]

/-- The string-detection loop at the top of `(*filter).With`: `some` with
the underlying strings when every element is a string, `none` as soon as a
type assertion `kv.(string)` fails. -/
def allStrings : List GoVal → Option (List String)
  | [] => some []
  | GoVal.str s :: rest => (allStrings rest).map (fun l => s :: l)
  | GoVal.other _ :: _ => none

/-- `(*filter).With(keyvals...)`.  Returns the heap index of the returned
node together with the successor state.  A non-string keyval takes the
early-return escape hatch (fresh uncached node, parent's levels); otherwise
the cache is consulted under `pathString`, and on a miss the backward scan
decides the new node's `allowed`; only the `matched` and `recognized`
branches register the new node in the cache. -/
def withGo (st : CacheState) (l : FilterNode) (keyvals : List GoVal) :
    Nat × CacheState :=
  match allStrings keyvals with
  | none =>
    (st.heap.length,
      { st with
        heap := st.heap ++ [⟨l.next ++ [keyvals], l.allowed, l.initiallyAllowed⟩] })
  | some flat =>
    match cacheGet st.loggersMap (pathString flat) with
    | some i => (i, st)
    | none =>
      match scanRevFlat st.table flat.reverse with
      | ScanResult.matched lv =>
        (st.heap.length,
          { st with
            heap := st.heap ++ [⟨l.next ++ [keyvals], lv, l.initiallyAllowed⟩],
            loggersMap := cacheSet st.loggersMap (pathString flat) st.heap.length })
      | ScanResult.recognized =>
        (st.heap.length,
          { st with
            heap := st.heap ++
              [⟨l.next ++ [keyvals], l.initiallyAllowed, l.initiallyAllowed⟩],
            loggersMap := cacheSet st.loggersMap (pathString flat) st.heap.length })
      | ScanResult.unknown =>
        (st.heap.length,
          { st with
            heap := st.heap ++ [⟨l.next ++ [keyvals], l.allowed, l.initiallyAllowed⟩] })

/-- `(*filter).UpdateWith(keyvals...)` applied to a node value: the same
backward scan; an exact hit sets `allowed`, a key-only recognition resets
`allowed` to `initiallyAllowed`, otherwise the node is left unchanged. -/
def updateWithNode (t : AKVTable) (n : FilterNode) (flat : List String) :
    FilterNode :=
  match scanRevFlat t flat.reverse with
  | ScanResult.matched lv => { n with allowed := lv }
  | ScanResult.recognized => { n with allowed := n.initiallyAllowed }
  | ScanResult.unknown => n

/-- A configuration `Option` closure: `allowed(lv)` (from
`AllowDebug/Info/Error/None`) or `Allow*With(key, value)`. -/
inductive GoOption where
  | setAllowed (lv : level)
  | setKV (k v : GoVal) (lv : level)
deriving DecidableEq, Repr

/-- Applying an `Option` closure to a filter and the shared table:
`allowed(lv)` writes the node's `allowed`; `Allow*With` writes the shared
override table through `l.allowedKV.set`. -/
def applyOption (o : GoOption) (n : FilterNode) (t : AKVTable) :
    FilterNode × AKVTable :=
  match o with
  | GoOption.setAllowed lv => ({ n with allowed := lv }, t)
  | GoOption.setKV k v lv => (n, akvSet t k v lv)

/-- The throwaway receiver `&filter{allowedKV: cl.allowedKV}` used in step 1
of `(*CacheLoggers).update`. -/
def dummyFilter : FilterNode := ⟨[], 0, 0⟩

/-- Step 1 of `(*CacheLoggers).update`: each per-attribute option is applied
to a dummy filter, so only its override-table effect persists. -/
def applyOptionsTable (t : AKVTable) (os : List GoOption) : AKVTable :=
  os.foldl (fun t o => (applyOption o dummyFilter t).2) t

/-- `strings.Split` on a single-character separator, over characters. -/
def splitOnCharList (c : Char) : List Char → List (List Char)
  | [] => [[]]
  | a :: as =>
    if a = c then [] :: splitOnCharList c as
    else
      match splitOnCharList c as with
      | [] => [[a]]
      | t :: ts => (a :: t) :: ts

/-- `strings.Split(s, <single-character separator>)`. -/
def splitOnChar (c : Char) (s : String) : List String :=
  (splitOnCharList c s.data).map String.mk

/-- `strings.Split(k, keyvalsSplit)` inside `update`. -/
def splitAmp (s : String) : List String :=
  splitOnChar '&' s

/-- The body of the `for k, v := range cl.loggersMap` loop of
`(*CacheLoggers).update`, threading the heap and the shared table: apply the
default option (if any) to the cached node, snapshot
`l.initiallyAllowed = l.allowed`, then `l.UpdateWith(strings.Split(k, "&")...)`. -/
def updateEntry (dflt : Option GoOption) (acc : List FilterNode × AKVTable)
    (e : String × Nat) : List FilterNode × AKVTable :=
  match acc.1[e.2]? with
  | none => acc
  | some n =>
    let p := match dflt with
      | none => (n, acc.2)
      | some o => applyOption o n acc.2
    let n2 := { p.1 with initiallyAllowed := p.1.allowed }
    (acc.1.set e.2 (updateWithNode p.2 n2 (splitAmp e.1)), p.2)

/-- `(*CacheLoggers).update(defaultOption, options...)`: apply the
per-attribute options to the shared table, then re-derive every cached node
in place from its recorded attribute path. -/
def updateOp (st : CacheState) (dflt : Option GoOption) (os : List GoOption) :
    CacheState :=
  let t1 := applyOptionsTable st.table os
  let hAndT := st.loggersMap.foldl (updateEntry dflt) (st.heap, t1)
  ⟨hAndT.2, hAndT.1, st.loggersMap⟩

/-- `NewFilter`'s seeded override table:
`kv := keyval{"module", ""}; allowedKV.data[kv] = levelError`. -/
def seedTable : AKVTable :=
  [(keyval.mk (GoVal.str "module") (GoVal.str ""), levelError)]

/-- `NewFilter(next, options...)`: seed the table, apply the options to the
root node (per-attribute options write the table), snapshot
`initiallyAllowed = allowed`.  Returns the root node and the table. -/
def newFilter (os : List GoOption) : FilterNode × AKVTable :=
  let p := os.foldl (fun (p : FilterNode × AKVTable) o => applyOption o p.1 p.2)
    (⟨[], 0, 0⟩, seedTable)
  ({ p.1 with initiallyAllowed := p.1.allowed }, p.2)

/-- `(*filter).Debug`: the event forwarded to the backend
(level, message, keyvals), or `none` when the call is squelched. -/
def filterDebug (l : FilterNode) (msg : String) (keyvals : List GoVal) :
    Option (level × String × List GoVal) :=
  if l.allowed &&& levelDebug != 0 then some (levelDebug, msg, keyvals) else none

/-- `(*filter).Info`. -/
def filterInfo (l : FilterNode) (msg : String) (keyvals : List GoVal) :
    Option (level × String × List GoVal) :=
  if l.allowed &&& levelInfo != 0 then some (levelInfo, msg, keyvals) else none

/-- `(*filter).Error`. -/
def filterError (l : FilterNode) (msg : String) (keyvals : List GoVal) :
    Option (level × String × List GoVal) :=
  if l.allowed &&& levelError != 0 then some (levelError, msg, keyvals) else none

/-- `AllowLevel(lvl)`: the Go switch over the four level names. -/
def allowLevel (lvl : String) : Except String GoOption :=
  if lvl = "debug" then
    Except.ok (GoOption.setAllowed (levelError ||| levelInfo ||| levelDebug))
  else if lvl = "info" then Except.ok (GoOption.setAllowed (levelError ||| levelInfo))
  else if lvl = "error" then Except.ok (GoOption.setAllowed levelError)
  else if lvl = "none" then Except.ok (GoOption.setAllowed 0)
  else Except.error ("Expected either info, debug, error or none level, given " ++ lvl)

/-- The `switch level` of `UpdateLogLevel` building `Allow*With("module", module)`. -/
def allowWithOf (lvl : String) : Option level :=
  if lvl = "debug" then some (levelError ||| levelInfo ||| levelDebug)
  else if lvl = "info" then some (levelError ||| levelInfo)
  else if lvl = "error" then some levelError
  else if lvl = "none" then some 0
  else none

/-- The token loop of `UpdateLogLevel`: fold over the comma-separated items,
accumulating the latest `*` default option and the per-attribute options in
order; the first malformed token aborts with an error. -/
def parseItems : List String → Option GoOption → List GoOption →
    Except String (Option GoOption × List GoOption)
  | [], d, os => Except.ok (d, os)
  | item :: rest, d, os =>
    match splitOnChar ':' item with
    | [m, lv] =>
      if m = "*" then
        match allowLevel lv with
        | Except.ok o => parseItems rest (some o) os
        | Except.error e => Except.error e
      else
        match allowWithOf lv with
        | some l =>
          parseItems rest d (os ++ [GoOption.setKV (GoVal.str "module") (GoVal.str m) l])
        | none =>
          Except.error ("Expected either info, debug, error or none log level, given " ++ lv)
    | _ => Except.error ("Expected list in a form of module:level pairs, given pair " ++ item)

/-- The parsing part of `UpdateLogLevel(lvl)`: reject the empty string,
prefix a bare level with `*:`, split on commas and run the token loop. -/
def parsePolicy (lvl : String) : Except String (Option GoOption × List GoOption) :=
  if lvl = "" then Except.error "Empty log level"
  else
    let l := if lvl.data.contains ':' then lvl else "*:" ++ lvl
    parseItems (splitOnChar ',' l) none []

/-- `UpdateLogLevel(lvl)` against a state: the resulting state and whether a
configuration error was returned (`true` = error, state untouched). -/
def updateLogLevelRun (st : CacheState) (lvl : String) : CacheState × Bool :=
  match parsePolicy lvl with
  | Except.error _ => (st, true)
  | Except.ok p => (updateOp st p.1 p.2, false)

/-! Specification-side definitions, written from the spec's wording, to be
compared with the operational definitions above. -/

/-- The (key, value) pairs visited by the backward scan, most recently
appended pair first: the reversed flat keyvals list grouped two at a time. -/
def pairsRev : List String → List (String × String)
  | v :: k :: rest => (k, v) :: pairsRev rest
  | _ => []

/-- Declarative derivation of a new node's effective level (spec 4.4 steps
4-6): the override level of the most recently appended pair with an exact
table match if any pair has one; else the parent's baseline if some scanned
key is recognized; else the parent's effective level unchanged. -/
def specDerive (t : AKVTable) (parentAllowed parentBaseline : level)
    (flat : List String) : level :=
  match (pairsRev flat.reverse).findSome?
      (fun p => lookupExact t (GoVal.str p.1) (GoVal.str p.2)) with
  | some lv => lv
  | none =>
    if (pairsRev flat.reverse).any (fun p => keyRecognized t (GoVal.str p.1)) then
      parentBaseline
    else parentAllowed

/-- Declarative malformedness of one comma-separated policy token: it does
not split into exactly one module:level pair, or names an unknown level. -/
def tokenBad (item : String) : Bool :=
  match splitOnChar ':' item with
  | [_, lv] => !(lv == "debug" || lv == "info" || lv == "error" || lv == "none")
  | _ => true

/-- Declarative condition under which `UpdateLogLevel` reports a
configuration error: empty string, or some token malformed. -/
def policyBad (s : String) : Bool :=
  s == "" ||
    (splitOnChar ',' (if s.data.contains ':' then s else "*:" ++ s)).any tokenBad

/-- The recorded attribute path of the cache entry holding heap index `i`. -/
def findEntry (m : List (String × Nat)) (i : Nat) : Option String :=
  (m.find? (fun e => e.2 == i)).map (·.1)

/-- The level written last for pair `kv` by the per-attribute options of one
update call (later options overwrite earlier ones for the same pair). -/
def lastTarget : List GoOption → keyval → Option level
  | [], _ => none
  | o :: os, kv =>
    match lastTarget os kv with
    | some lv => some lv
    | none =>
      match o with
      | GoOption.setKV k v lv => if keyval.mk k v = kv then some lv else none
      | GoOption.setAllowed _ => none

/-- The node value produced for one cache entry by step 2 of
`(*CacheLoggers).update` when the default option does not write the shared
table: default applied, baseline snapshotted, then `UpdateWith` re-run. -/
def updatedNode (dflt : Option GoOption) (t : AKVTable) (p : String)
    (n : FilterNode) : FilterNode :=
  let q := match dflt with
    | none => n
    | some o => (applyOption o n t).1
  updateWithNode t { q with initiallyAllowed := q.allowed } (splitAmp p)

/-- The keys of the override table, in entry order. -/
def keysOf (t : AKVTable) : List keyval :=
  t.map (·.1)

/-- Whether an `Except` result is an error. -/
def isErr : Except String (Option GoOption × List GoOption) → Bool
  | Except.error _ => true
  | Except.ok _ => false

/-! Theorems. -/

theorem lookupKV_cons (e : keyval × level) (t : AKVTable) (kv : keyval) :
    lookupKV (e :: t) kv = if e.1 = kv then some e.2 else lookupKV t kv := by
  by_cases h : e.1 = kv <;> simp [lookupKV, List.find?_cons, h]

theorem any_key_iff (t : AKVTable) (kv : keyval) :
    t.any (fun e => e.1 == kv) = true ↔ kv ∈ keysOf t := by
  constructor
  · intro h
    obtain ⟨e, he, hek⟩ := List.any_eq_true.mp h
    exact List.mem_map.mpr ⟨e, he, by simpa using hek⟩
  · intro h
    obtain ⟨e, he, hek⟩ := List.mem_map.mp h
    exact List.any_eq_true.mpr ⟨e, he, by simpa using hek⟩

theorem lookupKV_eq_none (t : AKVTable) (kv : keyval) (h : kv ∉ keysOf t) :
    lookupKV t kv = none := by
  unfold lookupKV
  rw [List.find?_eq_none.mpr, Option.map_none']
  intro e he
  simp only [beq_iff_eq]
  intro hek
  apply h
  unfold keysOf
  exact List.mem_map.mpr ⟨e, he, hek⟩

theorem lookupKV_mapSet (t : AKVTable) (kvT : keyval) (lv : level) (kv : keyval) :
    lookupKV (t.map (fun e => if e.1 == kvT then (e.1, lv) else e)) kv =
      if kv = kvT then (lookupKV t kvT).map (fun _ => lv) else lookupKV t kv := by
  induction t with
  | nil => by_cases h : kv = kvT <;> simp [lookupKV, h]
  | cons e t ih =>
    simp only [List.map_cons]
    by_cases h1 : e.1 = kvT
    · rw [show (if (e.1 == kvT) = true then (e.1, lv) else e) = (e.1, lv) by simp [h1]]
      by_cases h3 : kv = kvT
      · rw [if_pos h3, lookupKV_cons, lookupKV_cons, if_pos (h1.trans h3.symm),
          if_pos h1]
        rfl
      · have hne : ¬ (e.1 = kv) := fun hh => h3 (hh.symm.trans h1)
        rw [if_neg h3, lookupKV_cons, lookupKV_cons, if_neg hne, if_neg hne, ih,
          if_neg h3]
    · rw [show (if (e.1 == kvT) = true then (e.1, lv) else e) = e by simp [h1]]
      by_cases h2 : e.1 = kv
      · by_cases h3 : kv = kvT
        · exact absurd (h2.trans h3) h1
        · rw [if_neg h3, lookupKV_cons, lookupKV_cons, if_pos h2, if_pos h2]
      · rw [lookupKV_cons, if_neg h2, ih]
        by_cases h3 : kv = kvT
        · rw [if_pos h3, if_pos h3, lookupKV_cons, if_neg h1]
        · rw [if_neg h3, if_neg h3, lookupKV_cons, if_neg h2]

theorem lookupKV_append_single (t : AKVTable) (kvT : keyval) (lv : level)
    (kv : keyval) :
    lookupKV (t ++ [(kvT, lv)]) kv =
      match lookupKV t kv with
      | some x => some x
      | none => if kv = kvT then some lv else none := by
  induction t with
  | nil =>
    by_cases h : kv = kvT
    · simp [lookupKV_cons, lookupKV, h]
    · simp [lookupKV_cons, lookupKV, h, Ne.symm h]
  | cons e t ih =>
    by_cases h : e.1 = kv <;> simp [lookupKV_cons, h, ih]

theorem lookupKV_akvSet (t : AKVTable) (k v : GoVal) (lv : level) (kv : keyval) :
    lookupKV (akvSet t k v lv) kv =
      if kv = keyval.mk k v then some lv else lookupKV t kv := by
  unfold akvSet
  by_cases hany : t.any (fun e => e.1 == keyval.mk k v) = true
  · rw [if_pos hany, lookupKV_mapSet]
    by_cases h : kv = keyval.mk k v
    · rw [if_pos h, if_pos h]
      have hs : (t.find? (fun e => e.1 == keyval.mk k v)).isSome := by
        rw [List.find?_isSome]
        simpa [List.any_eq_true] using hany
      obtain ⟨e, he⟩ := Option.isSome_iff_exists.mp hs
      simp [lookupKV, he]
    · rw [if_neg h, if_neg h]
  · rw [if_neg hany, lookupKV_append_single]
    by_cases h : kv = keyval.mk k v
    · rw [if_pos h]
      have hnone : lookupKV t kv = none := by
        apply lookupKV_eq_none
        intro hm
        rw [h] at hm
        exact hany ((any_key_iff t _).mpr hm)
      rw [hnone]
      simp [h]
    · rw [if_neg h]
      cases hl : lookupKV t kv <;> simp [hl, h]

theorem keysOf_akvSet (t : AKVTable) (k v : GoVal) (lv : level) :
    keysOf (akvSet t k v lv) =
      if t.any (fun e => e.1 == keyval.mk k v) then keysOf t
      else keysOf t ++ [keyval.mk k v] := by
  unfold akvSet
  by_cases hany : t.any (fun e => e.1 == keyval.mk k v) = true
  · rw [if_pos hany, if_pos hany]
    unfold keysOf
    rw [List.map_map]
    apply List.map_congr_left
    intro e _
    by_cases h : e.1 = keyval.mk k v <;> simp [Function.comp, h]
  · rw [if_neg hany, if_neg hany]
    simp [keysOf]

theorem nodup_keysOf_akvSet (t : AKVTable) (k v : GoVal) (lv : level)
    (h : (keysOf t).Nodup) : (keysOf (akvSet t k v lv)).Nodup := by
  rw [keysOf_akvSet]
  split
  · exact h
  · next hany =>
    have hnm : keyval.mk k v ∉ keysOf t := fun hm => hany ((any_key_iff t _).mpr hm)
    simp [List.nodup_append, h, hnm]

theorem mem_keysOf_akvSet_of_mem (t : AKVTable) (k v : GoVal) (lv : level)
    (kv : keyval) (h : kv ∈ keysOf t) : kv ∈ keysOf (akvSet t k v lv) := by
  rw [keysOf_akvSet]
  split
  · exact h
  · exact List.mem_append_left _ h

theorem mem_keysOf_akvSet_self (t : AKVTable) (k v : GoVal) (lv : level) :
    keyval.mk k v ∈ keysOf (akvSet t k v lv) := by
  rw [keysOf_akvSet]
  split
  · next hany => exact (any_key_iff t _).mp hany
  · exact List.mem_append_right _ (List.mem_singleton_self _)

theorem applyOptionsTable_cons (t : AKVTable) (o : GoOption) (os : List GoOption) :
    applyOptionsTable t (o :: os) =
      applyOptionsTable (applyOption o dummyFilter t).2 os := by
  simp [applyOptionsTable]

theorem lookupKV_applyOptionsTable (os : List GoOption) (t : AKVTable) (kv : keyval) :
    lookupKV (applyOptionsTable t os) kv =
      match lastTarget os kv with
      | some lv => some lv
      | none => lookupKV t kv := by
  induction os generalizing t with
  | nil => simp [applyOptionsTable, lastTarget]
  | cons o os ih =>
    rw [applyOptionsTable_cons]
    cases o with
    | setAllowed lv0 =>
      rw [show (applyOption (GoOption.setAllowed lv0) dummyFilter t).2 = t from rfl, ih]
      cases hlt : lastTarget os kv <;> simp [lastTarget, hlt]
    | setKV k0 v0 lv0 =>
      rw [show (applyOption (GoOption.setKV k0 v0 lv0) dummyFilter t).2 =
            akvSet t k0 v0 lv0 from rfl, ih]
      cases hlt : lastTarget os kv with
      | some l => simp [lastTarget, hlt]
      | none =>
        simp only [lastTarget, hlt]
        rw [lookupKV_akvSet]
        by_cases h : keyval.mk k0 v0 = kv
        · simp [h]
        · rw [if_neg h, if_neg (fun he => h he.symm)]

theorem mem_keysOf_applyOptionsTable (os : List GoOption) (t : AKVTable)
    (kv : keyval) (h : kv ∈ keysOf t) :
    kv ∈ keysOf (applyOptionsTable t os) := by
  induction os generalizing t with
  | nil => exact h
  | cons o os ih =>
    rw [applyOptionsTable_cons]
    cases o with
    | setAllowed lv0 => exact ih t h
    | setKV k0 v0 lv0 => exact ih _ (mem_keysOf_akvSet_of_mem _ _ _ _ _ h)

theorem lastTarget_isSome_of_mem (os : List GoOption) (k v : GoVal) (lv : level)
    (h : GoOption.setKV k v lv ∈ os) :
    (lastTarget os (keyval.mk k v)).isSome := by
  induction os with
  | nil => simp at h
  | cons o os ih =>
    rcases List.mem_cons.mp h with he | ht
    · subst he
      cases hlt : lastTarget os (keyval.mk k v) <;> simp [lastTarget, hlt]
    · have h2 := ih ht
      obtain ⟨l2, hl2⟩ := Option.isSome_iff_exists.mp h2
      simp [lastTarget, hl2]

theorem mem_keysOf_of_lastTarget (os : List GoOption) (t : AKVTable) (kv : keyval)
    (h : (lastTarget os kv).isSome) :
    kv ∈ keysOf (applyOptionsTable t os) := by
  induction os generalizing t with
  | nil => simp [lastTarget] at h
  | cons o os ih =>
    rw [applyOptionsTable_cons]
    by_cases hlt : (lastTarget os kv).isSome
    · cases o with
      | setAllowed lv0 => exact ih t hlt
      | setKV k0 v0 lv0 => exact ih _ hlt
    · have hn : lastTarget os kv = none := Option.not_isSome_iff_eq_none.mp hlt
      cases o with
      | setAllowed lv0 => simp [lastTarget, hn] at h
      | setKV k0 v0 lv0 =>
        have hk : keyval.mk k0 v0 = kv := by
          by_contra hne
          simp [lastTarget, hn, hne] at h
        subst hk
        exact mem_keysOf_applyOptionsTable os _ _ (mem_keysOf_akvSet_self t k0 v0 lv0)

theorem keysOf_applyOptionsTable_of_targets_mem (os : List GoOption) (t : AKVTable)
    (h : ∀ k v lv, GoOption.setKV k v lv ∈ os → keyval.mk k v ∈ keysOf t) :
    keysOf (applyOptionsTable t os) = keysOf t := by
  induction os generalizing t with
  | nil => rfl
  | cons o os ih =>
    rw [applyOptionsTable_cons]
    cases o with
    | setAllowed lv0 =>
      exact ih t (fun k v lv hm => h k v lv (List.mem_cons_of_mem _ hm))
    | setKV k0 v0 lv0 =>
      have hk : keyval.mk k0 v0 ∈ keysOf t := h k0 v0 lv0 (List.mem_cons_self _ _)
      have hkeys : keysOf (akvSet t k0 v0 lv0) = keysOf t := by
        rw [keysOf_akvSet, if_pos ((any_key_iff t _).mpr hk)]
      rw [show (applyOption (GoOption.setKV k0 v0 lv0) dummyFilter t).2 =
            akvSet t k0 v0 lv0 from rfl]
      rw [ih _ (fun k v lv hm => by
        rw [hkeys]
        exact h k v lv (List.mem_cons_of_mem _ hm))]
      exact hkeys

theorem nodup_keysOf_applyOptionsTable (os : List GoOption) (t : AKVTable)
    (h : (keysOf t).Nodup) : (keysOf (applyOptionsTable t os)).Nodup := by
  induction os generalizing t with
  | nil => exact h
  | cons o os ih =>
    rw [applyOptionsTable_cons]
    cases o with
    | setAllowed lv0 => exact ih t h
    | setKV k0 v0 lv0 => exact ih _ (nodup_keysOf_akvSet _ _ _ _ h)

theorem assoc_ext : ∀ (t1 t2 : AKVTable), keysOf t1 = keysOf t2 →
    (∀ kv, lookupKV t1 kv = lookupKV t2 kv) → (keysOf t1).Nodup → t1 = t2
  | [], [], _, _, _ => rfl
  | [], e :: t2, hk, _, _ => by simp [keysOf] at hk
  | e :: t1, [], hk, _, _ => by simp [keysOf] at hk
  | e1 :: t1, e2 :: t2, hk, hl, hn => by
    simp only [keysOf, List.map_cons, List.cons.injEq] at hk
    obtain ⟨hk1, hk2⟩ := hk
    have hn1 : e1.1 ∉ keysOf t1 := by
      simp only [keysOf, List.map_cons, List.nodup_cons] at hn
      exact hn.1
    have hn2 : (keysOf t1).Nodup := by
      simp only [keysOf, List.map_cons, List.nodup_cons] at hn
      exact hn.2
    have he2 : e1.2 = e2.2 := by
      have h1 := hl e1.1
      rw [lookupKV_cons, lookupKV_cons, if_pos rfl, if_pos hk1.symm] at h1
      exact Option.some.inj h1
    have he : e1 = e2 := Prod.ext_iff.mpr ⟨hk1, he2⟩
    have ht : t1 = t2 := by
      apply assoc_ext t1 t2 hk2 _ hn2
      intro kv
      by_cases hkv : kv = e1.1
      · rw [hkv, lookupKV_eq_none t1 e1.1 hn1,
          lookupKV_eq_none t2 e1.1 (by unfold keysOf; rw [← hk2]; exact hn1)]
      · have h1 := hl kv
        rw [lookupKV_cons, lookupKV_cons, if_neg (fun hh => hkv hh.symm),
          if_neg (fun hh => hkv (hk1 ▸ hh).symm)] at h1
        exact h1
    rw [he, ht]

theorem applyOptionsTable_idem (os : List GoOption) (t : AKVTable)
    (h : (keysOf t).Nodup) :
    applyOptionsTable (applyOptionsTable t os) os = applyOptionsTable t os := by
  apply assoc_ext
  · apply keysOf_applyOptionsTable_of_targets_mem
    intro k v lv hm
    exact mem_keysOf_of_lastTarget os t _ (lastTarget_isSome_of_mem os k v lv hm)
  · intro kv
    rw [lookupKV_applyOptionsTable, lookupKV_applyOptionsTable]
    cases hlt : lastTarget os kv <;> simp
  · rw [keysOf_applyOptionsTable_of_targets_mem]
    · exact nodup_keysOf_applyOptionsTable os t h
    · intro k v lv hm
      exact mem_keysOf_of_lastTarget os t _ (lastTarget_isSome_of_mem os k v lv hm)

theorem scanRevFlat_eq_spec (t : AKVTable) : (r : List String) →
    scanRevFlat t r =
      match (pairsRev r).findSome?
          (fun p => lookupExact t (GoVal.str p.1) (GoVal.str p.2)) with
      | some lv => ScanResult.matched lv
      | none =>
        if (pairsRev r).any (fun p => keyRecognized t (GoVal.str p.1)) then
          ScanResult.recognized
        else ScanResult.unknown
  | [] => by simp [scanRevFlat, pairsRev]
  | [v] => by simp [scanRevFlat, pairsRev]
  | v :: k :: rest => by
    have ih := scanRevFlat_eq_spec t rest
    simp only [scanRevFlat, pairsRev, List.findSome?_cons, List.any_cons]
    cases hx : lookupExact t (GoVal.str k) (GoVal.str v) with
    | some lv => simp
    | none =>
      by_cases hr : keyRecognized t (GoVal.str k) = true
      · rw [ih]
        cases hfs : (pairsRev rest).findSome?
            (fun p => lookupExact t (GoVal.str p.1) (GoVal.str p.2)) with
        | some lv => simp [hr, hfs]
        | none =>
          by_cases ha : (pairsRev rest).any
              (fun p => keyRecognized t (GoVal.str p.1)) = true
          · simp [hr, hfs, ha]
          · simp [hr, hfs, ha]
      · rw [ih]
        cases hfs : (pairsRev rest).findSome?
            (fun p => lookupExact t (GoVal.str p.1) (GoVal.str p.2)) with
        | some lv => simp [hfs]
        | none =>
          by_cases ha : (pairsRev rest).any
              (fun p => keyRecognized t (GoVal.str p.1)) = true
          · simp [hr, hfs, ha]
          · simp [hr, hfs, ha]

theorem specDerive_eq_scan (t : AKVTable) (pa pb : level) (flat : List String) :
    specDerive t pa pb flat =
      match scanRevFlat t flat.reverse with
      | ScanResult.matched lv => lv
      | ScanResult.recognized => pb
      | ScanResult.unknown => pa := by
  rw [scanRevFlat_eq_spec]
  unfold specDerive
  cases hfs : (pairsRev flat.reverse).findSome?
      (fun p => lookupExact t (GoVal.str p.1) (GoVal.str p.2)) with
  | some lv => simp [hfs]
  | none =>
    by_cases ha : (pairsRev flat.reverse).any
        (fun p => keyRecognized t (GoVal.str p.1)) = true
    · simp [hfs, ha]
    · simp [hfs, ha]

theorem allStrings_map_str (flat : List String) :
    allStrings (flat.map GoVal.str) = some flat := by
  induction flat with
  | nil => rfl
  | cons s rest ih => simp [allStrings, ih]

/-- C1: on a qualification whose keyvals are all strings and whose attribute
path misses the cache, the new node's effective level set is exactly the
declarative backward-scan derivation of the spec: the override level of the
most recently appended exactly-matching pair, else the parent's baseline if
some key was recognized, else the parent's effective level; the node keeps
the parent's baseline and forwards the attributes to the backend. -/
theorem claim_C1_with_derivation (st : CacheState) (l : FilterNode)
    (flat : List String)
    (hmiss : cacheGet st.loggersMap (pathString flat) = none) :
    ((withGo st l (flat.map GoVal.str)).2).heap[(withGo st l (flat.map GoVal.str)).1]? =
      some ⟨l.next ++ [flat.map GoVal.str],
        specDerive st.table l.allowed l.initiallyAllowed flat,
        l.initiallyAllowed⟩ := by
  rw [specDerive_eq_scan]
  simp only [withGo, allStrings_map_str, hmiss]
  cases hscan : scanRevFlat st.table flat.reverse <;>
    simp [hscan, List.getElem?_concat_length]

/-- Witness for C1: a recognized key with an unmatched value falls back to
the parent's baseline, not its current effective level. -/
theorem claim_C1_with_derivation_witness :
    cacheGet (CacheState.mk seedTable [] []).loggersMap (pathString ["module", "x"]) = none ∧
      ((withGo ⟨seedTable, [], []⟩ ⟨[], 6, 4⟩ (["module", "x"].map GoVal.str)).2).heap[(withGo ⟨seedTable, [], []⟩ ⟨[], 6, 4⟩ (["module", "x"].map GoVal.str)).1]? =
        some ⟨[["module", "x"].map GoVal.str], specDerive seedTable 6 4 ["module", "x"], 4⟩ :=
  ⟨by decide, claim_C1_with_derivation ⟨seedTable, [], []⟩ ⟨[], 6, 4⟩ ["module", "x"] (by decide)⟩

theorem scanMatchEntry_of_matched (t : AKVTable) : (r : List String) → (lv : level) →
    scanRevFlat t r = ScanResult.matched lv →
    ∃ e, scanMatchEntry t r = some e ∧ e.2 = lv
  | [], lv, h => by simp [scanRevFlat] at h
  | [v], lv, h => by simp [scanRevFlat] at h
  | v :: k :: rest, lv, h => by
    simp only [scanRevFlat] at h
    unfold scanMatchEntry
    cases hf : t.find? (fun e => e.1 == keyval.mk (GoVal.str k) (GoVal.str v)) with
    | some e =>
      have hx : lookupExact t (GoVal.str k) (GoVal.str v) = some e.2 := by
        simp [lookupExact, lookupKV, hf]
      rw [hx] at h
      exact ⟨e, rfl, ScanResult.matched.inj h⟩
    | none =>
      have hx : lookupExact t (GoVal.str k) (GoVal.str v) = none := by
        simp [lookupExact, lookupKV, hf]
      rw [hx] at h
      by_cases hr : keyRecognized t (GoVal.str k) = true
      · rw [if_pos hr] at h
        cases hs : scanRevFlat t rest with
        | matched lv2 =>
          rw [hs] at h
          have hlv : lv2 = lv := ScanResult.matched.inj h
          exact hlv ▸ scanMatchEntry_of_matched t rest lv2 hs
        | recognized => rw [hs] at h; exact absurd h (by simp)
        | unknown => rw [hs] at h; exact absurd h (by simp)
      · rw [if_neg hr] at h
        exact scanMatchEntry_of_matched t rest lv h

theorem scanMatchEntry_ne_of_vals (t : AKVTable) : (r : List String) →
    (∀ p ∈ pairsRev r, p.2 ≠ "") → (lv : level) →
    scanMatchEntry t r ≠ some (keyval.mk (GoVal.str "module") (GoVal.str ""), lv)
  | [], _, lv => by simp [scanMatchEntry]
  | [v], _, lv => by simp [scanMatchEntry]
  | v :: k :: rest, hvals, lv => by
    unfold scanMatchEntry
    cases hf : t.find? (fun e => e.1 == keyval.mk (GoVal.str k) (GoVal.str v)) with
    | some e =>
      intro hc
      have hp := List.find?_some hf
      simp only [beq_iff_eq] at hp
      rw [Option.some.inj hc] at hp
      have hv : v = "" := by
        have h2 := (keyval.mk.injEq _ _ _ _).mp hp.symm
        exact GoVal.str.inj h2.2
      exact hvals (k, v) (by simp [pairsRev]) hv
    | none =>
      exact scanMatchEntry_ne_of_vals t rest
        (fun p hp => hvals p (by simp [pairsRev, hp])) lv

/-- C7 amended: the bootstrap entry ("module", "") can supply the adopted
level only to a qualification or re-derivation that explicitly scans a pair
with the empty value; whenever every scanned pair's value is a nonempty
string, the adopting table entry is never the bootstrap entry (and an
adopted level always comes from the entry found by the scan). -/
theorem claim_C7_amended (t : AKVTable) (flat : List String) (lv : level)
    (hvals : ∀ p ∈ pairsRev flat.reverse, p.2 ≠ "") :
    scanMatchEntry t flat.reverse ≠
        some (keyval.mk (GoVal.str "module") (GoVal.str ""), lv) ∧
      (scanRevFlat t flat.reverse = ScanResult.matched lv →
        ∃ e, scanMatchEntry t flat.reverse = some e ∧ e.2 = lv) :=
  ⟨scanMatchEntry_ne_of_vals t flat.reverse hvals lv,
   scanMatchEntry_of_matched t flat.reverse lv⟩

/-- Witness for the amended C7: qualifying by ("module", "main") adopts
nothing from the bootstrap entry. -/
theorem claim_C7_amended_witness :
    scanMatchEntry seedTable (["module", "main"].reverse) ≠
      some (keyval.mk (GoVal.str "module") (GoVal.str ""), levelError) :=
  (claim_C7_amended seedTable ["module", "main"] levelError (by decide)).1

theorem cacheGet_mapSet_self (m : List (String × Nat)) (k : String) (v : Nat)
    (hany : m.any (fun e => e.1 == k) = true) :
    cacheGet (m.map (fun e => if e.1 == k then (e.1, v) else e)) k = some v := by
  induction m with
  | nil => simp at hany
  | cons e m ih =>
    by_cases h : e.1 = k
    · simp [cacheGet, List.find?_cons, h]
    · have htail : m.any (fun e => e.1 == k) = true := by
        simpa [List.any_cons, h] using hany
      simpa [cacheGet, List.find?_cons, h] using ih htail

theorem cacheGet_cacheSet_self (m : List (String × Nat)) (k : String) (v : Nat) :
    cacheGet (cacheSet m k v) k = some v := by
  unfold cacheSet
  by_cases hany : m.any (fun e => e.1 == k) = true
  · rw [if_pos hany]
    exact cacheGet_mapSet_self m k v hany
  · rw [if_neg hany]
    have hnone : m.find? (fun e => e.1 == k) = none := by
      apply List.find?_eq_none.mpr
      intro e he hek
      exact hany (List.any_eq_true.mpr ⟨e, he, hek⟩)
    simp [cacheGet, List.find?_append, hnone]

/-- C3 amended: repeating a qualification with the identical attribute
sequence returns the same node instance and leaves the state unchanged,
provided the first call either hit the cache or took a scan branch that
registers the node (exact match or key recognition); the no-key-recognized
branch does not register, so it is excluded. -/
theorem claim_C3_amended (st : CacheState) (parent : FilterNode)
    (flat : List String)
    (hreg : (cacheGet st.loggersMap (pathString flat)).isSome ∨
      scanRevFlat st.table flat.reverse ≠ ScanResult.unknown) :
    withGo (withGo st parent (flat.map GoVal.str)).2 parent (flat.map GoVal.str) =
      withGo st parent (flat.map GoVal.str) := by
  rcases hreg with hhit | hscan
  · obtain ⟨i, hi⟩ := Option.isSome_iff_exists.mp hhit
    simp only [withGo, allStrings_map_str, hi]
  · cases hget : cacheGet st.loggersMap (pathString flat) with
    | some i => simp only [withGo, allStrings_map_str, hget]
    | none =>
      cases hs : scanRevFlat st.table flat.reverse with
      | matched lv =>
        simp only [withGo, allStrings_map_str, hget, hs]
        simp [cacheGet_cacheSet_self]
      | recognized =>
        simp only [withGo, allStrings_map_str, hget, hs]
        simp [cacheGet_cacheSet_self]
      | unknown => exact absurd hs hscan

/-- Witness for the amended C3: the recognized-key qualification
("module", "x") is cached by its first call. -/
theorem claim_C3_amended_witness :
    withGo (withGo ⟨seedTable, [], []⟩ ⟨[], 4, 4⟩ (["module", "x"].map GoVal.str)).2
        ⟨[], 4, 4⟩ (["module", "x"].map GoVal.str) =
      withGo ⟨seedTable, [], []⟩ ⟨[], 4, 4⟩ (["module", "x"].map GoVal.str) :=
  claim_C3_amended ⟨seedTable, [], []⟩ ⟨[], 4, 4⟩ ["module", "x"] (Or.inr (by decide))

/-- C10: the cache key of a `With` call is built solely from that call's own
keyvals, so a node whose path string hits the process-wide cache receives
the cached instance unchanged whatever its parent was; and once one node's
qualification registers a path, qualification through any other node with
the same sequence returns exactly the registered instance without touching
the state. -/
theorem claim_C10_cache_key (st : CacheState) (flat : List String) :
    (∀ i, cacheGet st.loggersMap (pathString flat) = some i →
      ∀ parent, withGo st parent (flat.map GoVal.str) = (i, st)) ∧
    (cacheGet st.loggersMap (pathString flat) = none →
      scanRevFlat st.table flat.reverse ≠ ScanResult.unknown →
      ∀ pA pB,
        withGo (withGo st pA (flat.map GoVal.str)).2 pB (flat.map GoVal.str) =
          ((withGo st pA (flat.map GoVal.str)).1,
            (withGo st pA (flat.map GoVal.str)).2)) := by
  constructor
  · intro i hi parent
    simp only [withGo, allStrings_map_str, hi]
  · intro hget hscan pA pB
    cases hs : scanRevFlat st.table flat.reverse with
    | matched lv =>
      simp only [withGo, allStrings_map_str, hget, hs]
      simp [cacheGet_cacheSet_self]
    | recognized =>
      simp only [withGo, allStrings_map_str, hget, hs]
      simp [cacheGet_cacheSet_self]
    | unknown => exact absurd hs hscan

/-- Witness for C10: a hit under a path registered by someone else is
returned as-is, for a parent unrelated to the registering one. -/
theorem claim_C10_cache_key_witness :
    withGo ⟨seedTable, [], [("module&x", 0)]⟩ ⟨[], 6, 4⟩
        (["module", "x"].map GoVal.str) =
      (0, ⟨seedTable, [], [("module&x", 0)]⟩) :=
  (claim_C10_cache_key ⟨seedTable, [], [("module&x", 0)]⟩ ["module", "x"]).1 0
    (by decide) ⟨[], 6, 4⟩

theorem CacheState.eq_of_parts (a b : CacheState) (h1 : a.table = b.table)
    (h2 : a.heap = b.heap) (h3 : a.loggersMap = b.loggersMap) : a = b := by
  cases a
  cases b
  simp_all

theorem findEntry_cons_self (e : String × Nat) (m : List (String × Nat)) :
    findEntry (e :: m) e.2 = some e.1 := by
  simp [findEntry, List.find?_cons]

theorem findEntry_cons_ne (e : String × Nat) (m : List (String × Nat)) (i : Nat)
    (h : ¬ (e.2 = i)) : findEntry (e :: m) i = findEntry m i := by
  simp [findEntry, List.find?_cons, h]

theorem findEntry_eq_none (m : List (String × Nat)) (i : Nat)
    (h : i ∉ m.map (fun e => e.2)) : findEntry m i = none := by
  unfold findEntry
  rw [List.find?_eq_none.mpr, Option.map_none']
  intro x hx hxx
  exact h (List.mem_map.mpr ⟨x, hx, by simpa using hxx⟩)

theorem findEntry_of_mem (m : List (String × Nat)) (p : String) (i : Nat)
    (hmem : (p, i) ∈ m) (hnodup : (m.map (fun e => e.2)).Nodup) :
    findEntry m i = some p := by
  induction m with
  | nil => simp at hmem
  | cons e m ih =>
    rcases List.mem_cons.mp hmem with he | hm
    · rw [show e = (p, i) from he.symm]
      exact findEntry_cons_self (p, i) m
    · have hnd := (List.nodup_cons.mp hnodup).2
      have hni := (List.nodup_cons.mp hnodup).1
      have hne : e.2 ≠ i := by
        intro hh
        apply hni
        show e.2 ∈ List.map (fun e => e.2) m
        rw [hh]
        exact List.mem_map.mpr ⟨(p, i), hm, rfl⟩
      rw [findEntry_cons_ne e m i hne, ih hm hnd]

theorem updateEntry_benign (dflt : Option GoOption)
    (hd : dflt = none ∨ ∃ d, dflt = some (GoOption.setAllowed d))
    (h : List FilterNode) (t : AKVTable) (e : String × Nat) :
    updateEntry dflt (h, t) e =
      ((match h[e.2]? with
        | none => h
        | some n => h.set e.2 (updatedNode dflt t e.1 n)), t) := by
  rcases hd with hd | ⟨d, hd⟩ <;> subst hd <;>
    cases hn : h[e.2]? <;>
      simp [updateEntry, updatedNode, hn, applyOption]

theorem foldl_updateEntry_snd (dflt : Option GoOption)
    (hd : dflt = none ∨ ∃ d, dflt = some (GoOption.setAllowed d)) :
    ∀ (m : List (String × Nat)) (h : List FilterNode) (t : AKVTable),
    (m.foldl (updateEntry dflt) (h, t)).2 = t
  | [], _, _ => rfl
  | e :: m, h, t => by
    rw [List.foldl_cons, updateEntry_benign dflt hd h t e]
    exact foldl_updateEntry_snd dflt hd m _ t

theorem foldl_updateEntry_getElem (dflt : Option GoOption)
    (hd : dflt = none ∨ ∃ d, dflt = some (GoOption.setAllowed d)) :
    ∀ (m : List (String × Nat)) (h : List FilterNode) (t : AKVTable),
    (m.map (fun e => e.2)).Nodup → ∀ i : Nat,
    ((m.foldl (updateEntry dflt) (h, t)).1)[i]? =
      (match findEntry m i, h[i]? with
       | some p, some n => some (updatedNode dflt t p n)
       | _, _ => h[i]?)
  | [], h, t, _, i => by simp [findEntry]
  | e :: m, h, t, hnodup, i => by
    have hnd : (m.map (fun e => e.2)).Nodup := (List.nodup_cons.mp hnodup).2
    have hni : e.2 ∉ m.map (fun e => e.2) := (List.nodup_cons.mp hnodup).1
    rw [List.foldl_cons, updateEntry_benign dflt hd h t e]
    cases hn : h[e.2]? with
    | none =>
      simp only [hn]
      rw [foldl_updateEntry_getElem dflt hd m h t hnd i]
      by_cases hie : i = e.2
      · rw [hie, findEntry_eq_none m e.2 hni, findEntry_cons_self e m, hn]
      · rw [findEntry_cons_ne e m i (fun hh => hie hh.symm)]
    | some n =>
      simp only [hn]
      rw [foldl_updateEntry_getElem dflt hd m
        (h.set e.2 (updatedNode dflt t e.1 n)) t hnd i]
      by_cases hie : i = e.2
      · have hlt : e.2 < h.length := (List.getElem?_eq_some.mp hn).1
        rw [hie, findEntry_eq_none m e.2 hni, findEntry_cons_self e m, hn,
          List.getElem?_set_eq_of_lt _ hlt]
      · rw [findEntry_cons_ne e m i (fun hh => hie hh.symm),
          List.getElem?_set_ne (fun hh => hie hh.symm)]

theorem updateOp_spec (st : CacheState) (dflt : Option GoOption)
    (os : List GoOption)
    (hd : dflt = none ∨ ∃ d, dflt = some (GoOption.setAllowed d))
    (hnodup : (st.loggersMap.map (fun e => e.2)).Nodup) :
    (updateOp st dflt os).table = applyOptionsTable st.table os ∧
    (updateOp st dflt os).loggersMap = st.loggersMap ∧
    ∀ i : Nat, (updateOp st dflt os).heap[i]? =
      (match findEntry st.loggersMap i, st.heap[i]? with
       | some p, some n =>
         some (updatedNode dflt (applyOptionsTable st.table os) p n)
       | _, _ => st.heap[i]?) := by
  refine ⟨?_, rfl, ?_⟩
  · exact foldl_updateEntry_snd dflt hd st.loggersMap st.heap _
  · intro i
    exact foldl_updateEntry_getElem dflt hd st.loggersMap st.heap _ hnodup i

theorem splitOnCharList_no_sep (c : Char) : (l : List Char) → c ∉ l →
    splitOnCharList c l = [l]
  | [], _ => rfl
  | a :: as, h => by
    have ha : ¬ (a = c) := fun hh => h (hh ▸ List.mem_cons_self a as)
    have ih := splitOnCharList_no_sep c as (fun hh => h (List.mem_cons_of_mem a hh))
    simp [splitOnCharList, ha, ih]

theorem splitOnCharList_append (c : Char) : (l1 l2 : List Char) → c ∉ l1 →
    splitOnCharList c (l1 ++ c :: l2) = l1 :: splitOnCharList c l2
  | [], l2, _ => by simp [splitOnCharList]
  | a :: l1, l2, h => by
    have ha : ¬ (a = c) := fun hh => h (hh ▸ List.mem_cons_self a l1)
    have ih := splitOnCharList_append c l1 l2 (fun hh => h (List.mem_cons_of_mem a hh))
    simp [splitOnCharList, ha, ih]

theorem stringMk_data (s : String) : String.mk s.data = s := rfl

theorem splitAmp_pair (k v : String) (hk : '&' ∉ k.data) (hv : '&' ∉ v.data) :
    splitAmp (k ++ "&" ++ v) = [k, v] := by
  unfold splitAmp splitOnChar
  have hd : (k ++ "&" ++ v).data = k.data ++ '&' :: v.data := by
    simp [String.data_append]
  rw [hd, splitOnCharList_append '&' k.data v.data hk,
    splitOnCharList_no_sep '&' v.data hv]
  simp [stringMk_data]

/-- C2: after the update protocol runs with a level-type (or absent) default
option, every cached node whose recorded attribute path is exactly the
key&value pair targeted by a per-attribute option ends the update with its
effective level equal to the level that option list last wrote for the pair,
and the mutation is in place: the cache mapping is untouched and the node is
re-written under its existing index, so old references observe the level. -/
theorem claim_C2_update_match (st : CacheState) (dflt : Option GoOption)
    (os : List GoOption) (p : String) (id : Nat) (n : FilterNode)
    (k v : String) (lv : level)
    (hd : dflt = none ∨ ∃ d, dflt = some (GoOption.setAllowed d))
    (hnodup : (st.loggersMap.map (fun e => e.2)).Nodup)
    (hmem : (p, id) ∈ st.loggersMap)
    (hnode : st.heap[id]? = some n)
    (hp : p = k ++ "&" ++ v)
    (hk : '&' ∉ k.data) (hv : '&' ∉ v.data)
    (hlast : lastTarget os (keyval.mk (GoVal.str k) (GoVal.str v)) = some lv) :
    (updateOp st dflt os).loggersMap = st.loggersMap ∧
    ∃ n2, (updateOp st dflt os).heap[id]? = some n2 ∧ n2.allowed = lv := by
  obtain ⟨htab, hlm, hheap⟩ := updateOp_spec st dflt os hd hnodup
  refine ⟨hlm, ?_⟩
  rw [hheap id, findEntry_of_mem st.loggersMap p id hmem hnodup, hnode]
  refine ⟨_, rfl, ?_⟩
  have hsplit : splitAmp p = [k, v] := by rw [hp]; exact splitAmp_pair k v hk hv
  have hlook : lookupExact (applyOptionsTable st.table os)
      (GoVal.str k) (GoVal.str v) = some lv := by
    unfold lookupExact
    rw [lookupKV_applyOptionsTable, hlast]
  rcases hd with hd | ⟨d, hd⟩ <;> subst hd <;>
    simp [updatedNode, applyOption, updateWithNode, hsplit, scanRevFlat, hlook]

/-- Witness for C2: the scenario of the repository's own test: the cached
"module&test1" node ends an `AllowInfo` default + `AllowDebugWith` update
at the Debug set. -/
theorem claim_C2_update_match_witness :
    (updateOp ⟨seedTable, [⟨[], 4, 4⟩], [("module&test1", 0)]⟩
        (some (GoOption.setAllowed 6))
        [GoOption.setKV (GoVal.str "module") (GoVal.str "test1") 7]).loggersMap =
        [("module&test1", 0)] ∧
      ∃ n2, (updateOp ⟨seedTable, [⟨[], 4, 4⟩], [("module&test1", 0)]⟩
          (some (GoOption.setAllowed 6))
          [GoOption.setKV (GoVal.str "module") (GoVal.str "test1") 7]).heap[0]? =
          some n2 ∧ n2.allowed = 7 :=
  claim_C2_update_match ⟨seedTable, [⟨[], 4, 4⟩], [("module&test1", 0)]⟩
    (some (GoOption.setAllowed 6))
    [GoOption.setKV (GoVal.str "module") (GoVal.str "test1") 7]
    "module&test1" 0 ⟨[], 4, 4⟩ "module" "test1" 7
    (Or.inr ⟨6, rfl⟩) (by decide) (by decide) (by decide) (by decide)
    (by decide) (by decide) (by decide)

/-- C9: an update with no default option overwrites every cached node's
baseline with the node's pre-re-derivation effective level and only then
re-runs the step-4 scan against the node's recorded path; the previous
baseline is discarded unconditionally. -/
theorem claim_C9_nil_default (st : CacheState) (os : List GoOption)
    (p : String) (id : Nat) (n : FilterNode)
    (hnodup : (st.loggersMap.map (fun e => e.2)).Nodup)
    (hmem : (p, id) ∈ st.loggersMap)
    (hnode : st.heap[id]? = some n) :
    ∃ n2, (updateOp st none os).heap[id]? = some n2 ∧
      n2.initiallyAllowed = n.allowed ∧
      n2 = updateWithNode (applyOptionsTable st.table os)
        { n with initiallyAllowed := n.allowed } (splitAmp p) := by
  obtain ⟨htab, hlm, hheap⟩ := updateOp_spec st none os (Or.inl rfl) hnodup
  rw [hheap id, findEntry_of_mem st.loggersMap p id hmem hnodup, hnode]
  refine ⟨_, rfl, ?_, rfl⟩
  unfold updatedNode updateWithNode
  cases hscan : scanRevFlat (applyOptionsTable st.table os) (splitAmp p).reverse <;>
    simp [hscan]

/-- Witness for C9: the node cached under "module&test3" has its baseline
overwritten by its old effective level 6 when no default is supplied. -/
theorem claim_C9_nil_default_witness :
    ∃ n2, (updateOp ⟨seedTable, [⟨[], 6, 4⟩], [("module&test3", 0)]⟩ none
        []).heap[0]? = some n2 ∧ n2.initiallyAllowed = 6 ∧
      n2 = updateWithNode (applyOptionsTable seedTable [])
        { FilterNode.mk [] 6 4 with initiallyAllowed := 6 } (splitAmp "module&test3") :=
  claim_C9_nil_default ⟨seedTable, [⟨[], 6, 4⟩], [("module&test3", 0)]⟩ []
    "module&test3" 0 ⟨[], 6, 4⟩ (by decide) (by decide) (by decide)

theorem updatedNode_setAllowed_idem (d : level) (t : AKVTable) (p : String)
    (n : FilterNode) :
    updatedNode (some (GoOption.setAllowed d)) t p
        (updatedNode (some (GoOption.setAllowed d)) t p n) =
      updatedNode (some (GoOption.setAllowed d)) t p n := by
  unfold updatedNode applyOption updateWithNode
  cases hscan : scanRevFlat t (splitAmp p).reverse <;> simp [hscan]

/-- C6 amended: the update protocol is idempotent whenever a default level
option is supplied: with duplicate-free table keys and cache indices,
re-running `update` with the same level default and the same per-attribute
option list reproduces exactly the state after the first run.  (With a nil
default the counterexample above shows the baseline drifts, so the blanket
idempotence claim fails.) -/
theorem claim_C6_amended (st : CacheState) (d : level) (os : List GoOption)
    (ht : (keysOf st.table).Nodup)
    (hm : (st.loggersMap.map (fun e => e.2)).Nodup) :
    updateOp (updateOp st (some (GoOption.setAllowed d)) os)
        (some (GoOption.setAllowed d)) os =
      updateOp st (some (GoOption.setAllowed d)) os := by
  have hd : (some (GoOption.setAllowed d) : Option GoOption) = none ∨
      ∃ d2, (some (GoOption.setAllowed d) : Option GoOption) =
        some (GoOption.setAllowed d2) := Or.inr ⟨d, rfl⟩
  obtain ⟨ht1, hl1, hh1⟩ := updateOp_spec st _ os hd hm
  have hm2 : ((updateOp st (some (GoOption.setAllowed d)) os).loggersMap.map
      (fun e => e.2)).Nodup := by
    rw [hl1]
    exact hm
  obtain ⟨ht2, hl2, hh2⟩ :=
    updateOp_spec (updateOp st (some (GoOption.setAllowed d)) os) _ os hd hm2
  have hidem : applyOptionsTable
      ((updateOp st (some (GoOption.setAllowed d)) os).table) os =
      applyOptionsTable st.table os := by
    rw [ht1]
    exact applyOptionsTable_idem os st.table ht
  apply CacheState.eq_of_parts
  · rw [ht2, hidem, ht1]
  · apply List.ext_getElem?
    intro i
    rw [hh2 i, hl1]
    cases hfe : findEntry st.loggersMap i with
    | none => simp
    | some p =>
      cases hn : st.heap[i]? with
      | none =>
        have h1 : (updateOp st (some (GoOption.setAllowed d)) os).heap[i]? = none := by
          rw [hh1 i, hfe, hn]
        simp [h1]
      | some n =>
        have h1 : (updateOp st (some (GoOption.setAllowed d)) os).heap[i]? =
            some (updatedNode (some (GoOption.setAllowed d))
              (applyOptionsTable st.table os) p n) := by
          rw [hh1 i, hfe, hn]
        rw [h1]
        simp only [hidem]
        rw [updatedNode_setAllowed_idem]
  · rw [hl2, hl1]

/-- Witness for the amended C6: the two-entry scenario of the C6
counterexample becomes idempotent once an `AllowInfo` default is supplied. -/
theorem claim_C6_amended_witness :
    updateOp (updateOp
        ⟨[(keyval.mk (GoVal.str "module") (GoVal.str ""), 4),
          (keyval.mk (GoVal.str "module") (GoVal.str "test3"), 7)],
         [⟨[], 4, 4⟩], [("module&test3", 0)]⟩
        (some (GoOption.setAllowed 6)) []) (some (GoOption.setAllowed 6)) [] =
      updateOp
        ⟨[(keyval.mk (GoVal.str "module") (GoVal.str ""), 4),
          (keyval.mk (GoVal.str "module") (GoVal.str "test3"), 7)],
         [⟨[], 4, 4⟩], [("module&test3", 0)]⟩
        (some (GoOption.setAllowed 6)) [] :=
  claim_C6_amended
    ⟨[(keyval.mk (GoVal.str "module") (GoVal.str ""), 4),
      (keyval.mk (GoVal.str "module") (GoVal.str "test3"), 7)],
     [⟨[], 4, 4⟩], [("module&test3", 0)]⟩ 6 [] (by decide) (by decide)

theorem isErr_parseItems (items : List String) : ∀ (d : Option GoOption)
    (os : List GoOption),
    isErr (parseItems items d os) = items.any tokenBad := by
  induction items with
  | nil => intro d os; rfl
  | cons item rest ih =>
    intro d os
    rw [List.any_cons]
    cases hsp : splitOnChar ':' item with
    | nil => simp [parseItems, tokenBad, hsp, isErr]
    | cons m tl =>
      cases tl with
      | nil => simp [parseItems, tokenBad, hsp, isErr]
      | cons lv tl2 =>
        cases tl2 with
        | nil =>
          by_cases hm : m = "*" <;>
            by_cases h1 : lv = "debug" <;> by_cases h2 : lv = "info" <;>
              by_cases h3 : lv = "error" <;> by_cases h4 : lv = "none" <;>
                simp [parseItems, tokenBad, hsp, isErr, allowLevel, allowWithOf,
                  hm, h1, h2, h3, h4, ih] <;>
              exact ih _ _
        | cons x tl3 => simp [parseItems, tokenBad, hsp, isErr]

theorem isErr_parsePolicy (s : String) : isErr (parsePolicy s) = policyBad s := by
  unfold parsePolicy policyBad
  by_cases hs : s = ""
  · simp [hs, isErr]
  · rw [if_neg hs]
    have hb : (s == "") = false := by simp [hs]
    rw [hb, Bool.false_or]
    exact isErr_parseItems _ none []

/-- C4: `UpdateLogLevel` returns a configuration error exactly when the
policy string is empty or some comma-separated token of the (bare-level
normalized) string fails to split into one module:level pair or names a
level other than debug/info/error/none; and whenever it errors, no policy
update is applied at all: the state, including effects of earlier valid
tokens of the same string, is left untouched. -/
theorem claim_C4_policy_errors (st : CacheState) (s : String) :
    ((updateLogLevelRun st s).2 = true ↔ policyBad s = true) ∧
      ((updateLogLevelRun st s).2 = true → (updateLogLevelRun st s).1 = st) := by
  have hpe := isErr_parsePolicy s
  unfold updateLogLevelRun
  cases hp : parsePolicy s with
  | error e =>
    rw [hp] at hpe
    simp only [isErr] at hpe
    simp [← hpe]
  | ok pr =>
    rw [hp] at hpe
    simp only [isErr] at hpe
    simp [← hpe]

/-- Witness for C4: a string whose first token is valid but whose second
names an unknown level errors out and leaves the state untouched. -/
theorem claim_C4_policy_errors_witness :
    (updateLogLevelRun ⟨seedTable, [], []⟩ "test1:info,main:blah").2 = true ∧
      (updateLogLevelRun ⟨seedTable, [], []⟩ "test1:info,main:blah").1 =
        ⟨seedTable, [], []⟩ :=
  ⟨((claim_C4_policy_errors ⟨seedTable, [], []⟩ "test1:info,main:blah").1).mpr (by decide),
   (claim_C4_policy_errors ⟨seedTable, [], []⟩ "test1:info,main:blah").2
     (((claim_C4_policy_errors ⟨seedTable, [], []⟩ "test1:info,main:blah").1).mpr (by decide))⟩

/-- C5: for each of the three emission operations, if the node's effective
level set lacks the operation's bit the call is dropped with no output, and
otherwise the message and attributes are forwarded unchanged at that level. -/
theorem claim_C5_emission (l : FilterNode) (msg : String) (kvs : List GoVal) :
    (l.allowed &&& levelDebug = 0 → filterDebug l msg kvs = none) ∧
    (l.allowed &&& levelDebug ≠ 0 → filterDebug l msg kvs = some (levelDebug, msg, kvs)) ∧
    (l.allowed &&& levelInfo = 0 → filterInfo l msg kvs = none) ∧
    (l.allowed &&& levelInfo ≠ 0 → filterInfo l msg kvs = some (levelInfo, msg, kvs)) ∧
    (l.allowed &&& levelError = 0 → filterError l msg kvs = none) ∧
    (l.allowed &&& levelError ≠ 0 → filterError l msg kvs = some (levelError, msg, kvs)) := by
  refine ⟨?_, ?_, ?_, ?_, ?_, ?_⟩ <;> intro h <;>
    simp [filterDebug, filterInfo, filterError, bne_iff_ne, h]

/-- Witness for C5 at a node allowing only Error. -/
theorem claim_C5_emission_witness :
    filterDebug ⟨[], 4, 4⟩ "m" [] = none ∧
      filterError ⟨[], 4, 4⟩ "m" [] = some (levelError, "m", []) :=
  ⟨(claim_C5_emission ⟨[], 4, 4⟩ "m" []).1 (by decide),
   (claim_C5_emission ⟨[], 4, 4⟩ "m" []).2.2.2.2.2 (by decide)⟩

/-- Counterexample to C3: a second `With` call with the identical attribute
sequence returns a different node instance, because a qualification whose
keys are all unrecognized is never registered in the cache (the final branch
of `(*filter).With` omits `loggers.set`), so each call allocates afresh. -/
theorem claim_C3_counterexample :
    (withGo (withGo ⟨seedTable, [], []⟩ ⟨[], 4, 4⟩
          [GoVal.str "user", GoVal.str "Sam"]).2 ⟨[], 4, 4⟩
        [GoVal.str "user", GoVal.str "Sam"]).1 ≠
      (withGo ⟨seedTable, [], []⟩ ⟨[], 4, 4⟩
        [GoVal.str "user", GoVal.str "Sam"]).1 := by
  decide

/-- Counterexample to C6: with no default option, a cached node whose scan
now matches exactly ends the first update with baseline Error and effective
Debug, but the second identical update overwrites the baseline with the new
effective level, so the end states differ. -/
theorem claim_C6_counterexample :
    updateOp (updateOp
        ⟨[(keyval.mk (GoVal.str "module") (GoVal.str ""), 4),
          (keyval.mk (GoVal.str "module") (GoVal.str "test3"), 7)],
         [⟨[], 4, 4⟩], [("module&test3", 0)]⟩ none []) none [] ≠
      updateOp
        ⟨[(keyval.mk (GoVal.str "module") (GoVal.str ""), 4),
          (keyval.mk (GoVal.str "module") (GoVal.str "test3"), 7)],
         [⟨[], 4, 4⟩], [("module&test3", 0)]⟩ none [] := by
  decide

/-- Counterexample to C7: qualifying with the pair ("module", "") makes the
bootstrap table entry an exact match, and the derived node adopts its Error
level (the parent here allows nothing, so the adopted set can only have come
from that entry). -/
theorem claim_C7_counterexample :
    scanMatchEntry seedTable ["", "module"] =
        some (keyval.mk (GoVal.str "module") (GoVal.str ""), levelError) ∧
      (withGo ⟨seedTable, [], []⟩ ⟨[], 0, 0⟩
          [GoVal.str "module", GoVal.str ""]).2.heap =
        [⟨[[GoVal.str "module", GoVal.str ""]], levelError, 0⟩] := by
  decide

end TMLog
